import Mathlib

/-!
Verification of the content-analysis library `libs/social.py` of the
GenLayer intelligent-contracts repository.

The Python functions under scrutiny are pure string transformations.  We
embed them shallowly: a Python `str` becomes a Lean `String` (operated on
through its underlying `List Char`), and each library function becomes a
computable Lean function translated clause-by-clause from the source.

Modelling conventions for Python primitives:
* `str.split()` (no separator) splits on runs of whitespace and drops the
  empty pieces; `' '.join` interposes single spaces; `str.strip()` removes
  leading and trailing whitespace.
* The regex class `\s` (and `str.isspace`) is modelled on the Latin-1
  range: space, tab, newline, carriage return, vertical tab, form feed,
  the separators x1c-x1f, next-line x85 and no-break space xa0.
  Whitespace-only code points outside Latin-1 are not modelled.  The class
  `\w` is modelled as ASCII alphanumeric plus underscore (all inputs in
  the claims are ASCII).
* `needle in hay` (substring test) and `str.lower()` (ASCII case folding)
  are modelled directly.
* Recursive scanners are written with an explicit fuel argument so that
  they are structurally recursive and evaluate inside the kernel.  Every
  scanner consumes at least one character per step, so fuel equal to the
  length of the input is always sufficient; the `..._eq` lemmas below make
  this formal by showing the fuel argument is irrelevant once it dominates
  the input length.
-/

/-- Model of Python `str.isspace` / regex `\s` on the Latin-1 range. -/
def isPySpace (c : Char) : Bool :=
  c = ' ' || c = '\t' || c = '\n' || c = '\r' || c = '\x0b' || c = '\x0c' ||
  c = '\x1c' || c = '\x1d' || c = '\x1e' || c = '\x1f' || c = '\x85' || c = '\xa0'

/-- Model of the regex class `\w`: ASCII alphanumeric or underscore. -/
def isWordChar (c : Char) : Bool :=
  c.isAlphanum || c = '_'

/-- Characters kept by `clean_text`: the complement of the regex class
`[^\w\s.,!?-]` used in `re.sub`, i.e. word characters, whitespace and the
punctuation marks dot, comma, bang, question mark and hyphen. -/
def allowedChar (c : Char) : Bool :=
  isWordChar c || isPySpace c || c = '.' || c = ',' || c = '!' || c = '?' || c = '-'

/-- Fuelled worker for `pySplitW`. -/
def pySplitWF : Nat → List Char → List (List Char)
  | _, [] => []
  | 0, _ :: _ => []
  | fuel + 1, c :: cs =>
    if isPySpace c then pySplitWF fuel cs
    else (c :: cs.takeWhile (fun x => !isPySpace x)) ::
      pySplitWF fuel (cs.dropWhile (fun x => !isPySpace x))

/-- Model of Python `str.split()` with no separator: maximal runs of
non-whitespace characters; leading, trailing and repeated whitespace
contribute nothing. -/
def pySplitW (l : List Char) : List (List Char) :=
  pySplitWF l.length l

/-- Model of Python `' '.join(words)`. -/
def joinSp : List (List Char) → List Char
  | [] => []
  | [w] => w
  | w :: ws => w ++ ' ' :: joinSp ws

/-- The first line of `clean_text`: `' '.join(content.split())`. -/
def collapseWs (l : List Char) : List Char :=
  joinSp (pySplitW l)

/-- Removal of trailing whitespace (the right half of Python `str.strip`). -/
def rtrim : List Char → List Char
  | [] => []
  | c :: cs =>
    match rtrim cs with
    | [] => if isPySpace c then [] else [c]
    | d :: ds => c :: d :: ds

/-- Model of Python `str.strip()`: remove leading and trailing whitespace. -/
def pyStrip (l : List Char) : List Char :=
  rtrim (l.dropWhile isPySpace)

/-- Embedding of `clean_text` from `libs/social.py`:
`content = ' '.join(content.split())`, then
`content = re.sub(r'[^\w\s.,!?-]', '', content)`, then
`return content.strip()`. -/
def clean_text (content : String) : String :=
  String.mk (pyStrip ((collapseWs content.data).filter allowedChar))

/-- Model of Python substring containment `needle in hay`. -/
def containsSub (needle : List Char) : List Char → Bool
  | [] => needle.isEmpty
  | c :: rest => needle.isPrefixOf (c :: rest) || containsSub needle rest

/-- Model of Python `str.lower()` (ASCII case folding). -/
def pyLower (l : List Char) : List Char :=
  l.map Char.toLower

/-- Embedding of `get_sentiment_keywords` from `libs/social.py`: the fixed
positive and negative lexicons (first and second component). -/
def get_sentiment_keywords : List String × List String :=
  (["good", "great", "excellent", "amazing", "awesome", "love", "best", "wonderful"],
   ["bad", "terrible", "awful", "hate", "worst", "horrible", "disappointing", "poor"])

/-- Embedding of `basic_sentiment_analysis` from `libs/social.py`: lower-case
the content, count the lexicon words contained in it (one unit per lexicon
word, mirroring `sum(1 for word in ... if word in content_lower)`) and
compare the two counts. -/
def basic_sentiment_analysis (content : String) : String :=
  let keywords := get_sentiment_keywords
  let content_lower := pyLower content.data
  let positive_count :=
    (keywords.1.map (fun word => if containsSub word.data content_lower then (1 : Nat) else 0)).sum
  let negative_count :=
    (keywords.2.map (fun word => if containsSub word.data content_lower then (1 : Nat) else 0)).sum
  if positive_count > negative_count then "positive"
  else if negative_count > positive_count then "negative"
  else "neutral"

/-- Model of Python `content.rsplit(' ', 1)[0]`: the part of the string
before its last space, or the whole string if it has no space. -/
def beforeLastSpace : List Char → List Char
  | [] => []
  | c :: rest =>
    if ' ' ∈ rest then c :: beforeLastSpace rest
    else if c = ' ' then []
    else c :: rest

/-- Model of the Python slice `l[:n]`, including negative `n` (which counts
from the end, clamping at zero). -/
def pySliceTo (l : List Char) (n : Int) : List Char :=
  if n < 0 then l.take (l.length - (-n).toNat) else l.take n.toNat

/-- Embedding of `summarize_content` from `libs/social.py`:
`if len(content) <= max_length: return content` and otherwise
`return content[:max_length].rsplit(' ', 1)[0] + '...'`.  The Python body
has no raising operation for any integer `max_length`, so the embedding is
a total function into `String`. -/
def summarize_content (content : String) (max_length : Int) : String :=
  if (content.data.length : Int) ≤ max_length then content
  else String.mk (beforeLastSpace (pySliceTo content.data max_length) ++ ['.', '.', '.'])

/-- Fuelled worker for the `re.findall(r'@(\w+)', content)` scan of
`extract_mentions`: at each position, an `@` followed by a non-empty
maximal run of word characters yields that run (the captured group), and
scanning resumes after the run; otherwise scanning advances one character. -/
def mentionScanF : Nat → List Char → List (List Char)
  | _, [] => []
  | 0, _ :: _ => []
  | fuel + 1, c :: rest =>
    if c = '@' then
      if rest.takeWhile isWordChar = [] then mentionScanF fuel rest
      else rest.takeWhile isWordChar :: mentionScanF fuel (rest.dropWhile isWordChar)
    else mentionScanF fuel rest

/-- Embedding of `extract_mentions` from `libs/social.py`:
`re.findall(r'@(\w+)', content)`. -/
def extract_mentions (content : String) : List String :=
  (mentionScanF content.data.length content.data).map String.mk

/-- Embedding of `extract_hashtags` from `libs/social.py`:
`re.findall(r'#(\w+)', content)` — the same scan keyed on `#`. -/
def hashtagScanF : Nat → List Char → List (List Char)
  | _, [] => []
  | 0, _ :: _ => []
  | fuel + 1, c :: rest =>
    if c = '#' then
      if rest.takeWhile isWordChar = [] then hashtagScanF fuel rest
      else rest.takeWhile isWordChar :: hashtagScanF fuel (rest.dropWhile isWordChar)
    else hashtagScanF fuel rest

/-- Embedding of `extract_hashtags` from `libs/social.py`. -/
def extract_hashtags (content : String) : List String :=
  (hashtagScanF content.data.length content.data).map String.mk

/-- The regex class `[A-Za-z0-9._%+-]` (email local part). -/
def isLocalChar (c : Char) : Bool :=
  c.isAlphanum || c = '.' || c = '_' || c = '%' || c = '+' || c = '-'

/-- The regex class `[A-Za-z0-9.-]` (email domain). -/
def isDomainChar (c : Char) : Bool :=
  c.isAlphanum || c = '.' || c = '-'

/-- The regex class `[A-Z|a-z]` as written in the source pattern: ASCII
letters and, verbatim from the character class, the bar character. -/
def isTldChar (c : Char) : Bool :=
  c.isAlpha || c = '|'

/-- Whether an optional character is a word character (`none` stands for
the edge of the string and is not a word character); used for `\b`. -/
def isWordOpt : Option Char → Bool
  | none => false
  | some c => isWordChar c

/-- The `\b` test after consuming `k ≥ 1` characters of the candidate
top-level run `t`: the word-character status of the last consumed character
must differ from that of the following character (`restHead` when the whole
run is consumed). -/
def tldBoundary (t : List Char) (restHead : Option Char) (k : Nat) : Bool :=
  isWordOpt (t.get? (k - 1)) != isWordOpt (if k < t.length then t.get? k else restHead)

/-- Backtracking of the greedy `[A-Z|a-z]{2,}` against the final `\b`:
try consuming `k` characters of the run `t`, for `k` descending, accepting
the first `k ≥ 2` whose end position is a word boundary. -/
def tldSearch (t : List Char) (restHead : Option Char) : Nat → Option Nat
  | 0 => none
  | k + 1 =>
    if k + 1 < 2 then none
    else if tldBoundary t restHead (k + 1) then some (k + 1)
    else tldSearch t restHead k

/-- Backtracking of the greedy `[A-Za-z0-9.-]+` against `\.`: try the dot
at position `n` of `s2` (the text after the `@`), for `n` descending from
the end of the maximal domain run, leaving a non-empty domain part before
the dot; on success return the number of characters of `s2` consumed. -/
def dotSearch (s2 : List Char) : Nat → Option Nat
  | 0 => none
  | n + 1 =>
    (if s2.get? (n + 1) = some '.' then
      (let after := s2.drop (n + 2)
       let t := after.takeWhile isTldChar
       match tldSearch t ((after.drop t.length).head?) t.length with
       | some k => some ((n + 1) + 1 + k)
       | none => dotSearch s2 n)
    else dotSearch s2 n)

/-- Attempt to match the source email pattern
`\b[A-Za-z0-9._%+-]+@[A-Za-z0-9.-]+\.[A-Z|a-z]{2,}\b` at the current
position (`prev` is the character just before it, for the leading `\b`),
with the backtracking order of Python `re`; returns the match length. -/
def emailMatchLen (prev : Option Char) (s : List Char) : Option Nat :=
  if isWordOpt prev == isWordOpt s.head? then none
  else
    let l := s.takeWhile isLocalChar
    if l.isEmpty then none
    else
      match s.drop l.length with
      | '@' :: s2 =>
        let d := s2.takeWhile isDomainChar
        if d.isEmpty then none
        else
          match dotSearch s2 (d.length - 1) with
          | some k => some (l.length + 1 + k)
          | none => none
      | _ => none

/-- Fuelled worker for the `re.findall` scan of `extract_emails`: try a
match at each position from left to right; on success emit the match and
resume right after it (every match is at least two characters long, so the
`n - 1` drop below is exact), otherwise advance one character. -/
def emailScanF : Nat → Option Char → List Char → List (List Char)
  | _, _, [] => []
  | 0, _, _ :: _ => []
  | fuel + 1, prev, c :: rest =>
    match emailMatchLen prev (c :: rest) with
    | some n =>
      (c :: rest).take n ::
        emailScanF fuel ((c :: rest).take n).getLast? (rest.drop (n - 1))
    | none => emailScanF fuel (some c) rest

/-- Embedding of `extract_emails` from `libs/social.py`:
`re.findall(r'\b[A-Za-z0-9._%+-]+@[A-Za-z0-9.-]+\.[A-Z|a-z]{2,}\b', content)`. -/
def extract_emails (content : String) : List String :=
  (emailScanF content.data.length none content.data).map String.mk

/-- Embedding of `search_text` from `libs/social.py`. -/
def search_text (content search_term : String) (case_sensitive : Bool) : Bool :=
  if !case_sensitive then containsSub (pyLower search_term.data) (pyLower content.data)
  else containsSub search_term.data content.data

/-- Embedding of `get_word_count` from `libs/social.py`:
`len(content.split())`. -/
def get_word_count (content : String) : Nat :=
  (pySplitW content.data).length

/-- Embedding of `contains_keywords` from `libs/social.py`: one entry per
keyword, in caller order, flagging case-insensitive containment. -/
def contains_keywords (content : String) (keywords : List String) : List (String × Bool) :=
  keywords.map (fun keyword => (keyword, containsSub (pyLower keyword.data) (pyLower content.data)))

/-- Embedding of the `SOCIAL_PLATFORMS` table from `libs/social.py`, in
source (insertion) order. -/
def SOCIAL_PLATFORMS : List (String × String) :=
  [("twitter", "twitter.com"), ("facebook", "facebook.com"), ("instagram", "instagram.com"),
   ("linkedin", "linkedin.com"), ("reddit", "reddit.com"), ("youtube", "youtube.com")]

/-- Embedding of `identify_platform` from `libs/social.py`: first table
entry whose domain occurs in the lower-cased URL, else `"unknown"`. -/
def identify_platform (url : String) : String :=
  let url_lower := pyLower url.data
  match SOCIAL_PLATFORMS.find? (fun pd => containsSub pd.2.data url_lower) with
  | some pd => pd.1
  | none => "unknown"

/-- Fuelled worker for `collapseWsRec`. -/
def collapseWsRecF : Nat → List Char → List Char
  | _, [] => []
  | 0, _ :: _ => []
  | fuel + 1, c :: cs =>
    if isPySpace c then ' ' :: collapseWsRecF fuel (cs.dropWhile isPySpace)
    else c :: collapseWsRecF fuel cs

/-- Direct single-pass reading of the spec sentence "collapses any run of
whitespace (space, tab, newline, etc.) into a single space": every maximal
whitespace run becomes one space, all other characters are copied. -/
def collapseWsRec (l : List Char) : List Char :=
  collapseWsRecF l.length l

/-- Characters the claim about `clean_text` says are kept: alphanumeric,
whitespace, or one of dot, comma, bang, question mark, hyphen — the claim
omits the underscore that the source class `\w` also keeps. -/
def claimedAllowed (c : Char) : Bool :=
  c.isAlphanum || isPySpace c || c = '.' || c = ',' || c = '!' || c = '?' || c = '-'

/-- Modelled from the claim wording for `clean_text`: collapse whitespace
runs to single spaces and trim, then drop every character outside
`claimedAllowed` (no further trimming is mentioned). -/
def clean_claimed (s : String) : String :=
  String.mk ((pyStrip (collapseWsRec s.data)).filter claimedAllowed)

/-- The amended description of `clean_text`: collapse whitespace runs to
single spaces and trim, then drop every character that is not a word
character (alphanumeric or underscore), whitespace, or one of `. , ! ? -`,
then trim again. -/
def clean_amended (s : String) : String :=
  String.mk (pyStrip ((pyStrip (collapseWsRec s.data)).filter allowedChar))

/-- The positive lexicon as listed in the spec. -/
def positive_lexicon : List String :=
  ["good", "great", "excellent", "amazing", "awesome", "love", "best", "wonderful"]

/-- The negative lexicon as listed in the spec. -/
def negative_lexicon : List String :=
  ["bad", "terrible", "awful", "hate", "worst", "horrible", "disappointing", "poor"]

/-- The spec's description of the sentiment classifier: lower-case the
text, let P and N be the numbers of positive and negative lexicon words
contained in it as substrings, and compare. -/
def classify_spec (text : String) : String :=
  let lower := pyLower text.data
  let P := (positive_lexicon.filter (fun w => containsSub w.data lower)).length
  let N := (negative_lexicon.filter (fun w => containsSub w.data lower)).length
  if P > N then "positive" else if N > P then "negative" else "neutral"

/-- The claim's description of mention extraction: for each `@` followed by
one or more word characters, emit those word characters (without the `@`),
in left-to-right order. -/
def mentionsSpec : List Char → List (List Char)
  | [] => []
  | c :: rest =>
    if c = '@' ∧ rest.takeWhile isWordChar ≠ [] then
      rest.takeWhile isWordChar :: mentionsSpec rest
    else mentionsSpec rest

/-- Position of the last space of a list, if any. -/
def lastSpacePos : List Char → Option Nat
  | [] => none
  | c :: rest =>
    match lastSpacePos rest with
    | some k => some (k + 1)
    | none => if c = ' ' then some 0 else none

/-- The spec's description of word-boundary truncation: cut the prefix at
its last space (dropping the trailing partial word), or keep it whole if it
contains no space. -/
def truncAtLastSpaceSpec (l : List Char) : List Char :=
  match lastSpacePos l with
  | some k => l.take k
  | none => l

/-! Fuel irrelevance and unfolding equations for the fuelled scanners. -/

theorem pySplitWF_eq (n : Nat) : ∀ l : List Char, l.length ≤ n → pySplitWF n l = pySplitW l := by
  induction n using Nat.strong_induction_on with
  | _ n ih =>
    intro l hl
    cases l with
    | nil => cases n <;> rfl
    | cons c cs =>
      cases n with
      | zero => simp at hl
      | succ n =>
        have hcs : cs.length ≤ n := by simpa using hl
        show pySplitWF (n + 1) (c :: cs) = pySplitWF (cs.length + 1) (c :: cs)
        simp only [pySplitWF]
        split
        · exact (ih n (Nat.lt_succ_self _) cs hcs).trans
            (ih cs.length (Nat.lt_succ_of_le hcs) cs le_rfl).symm
        · have hd : (cs.dropWhile (fun x => !isPySpace x)).length ≤ cs.length :=
            (List.dropWhile_sublist _).length_le
          exact congrArg _ ((ih n (Nat.lt_succ_self _) _ (le_trans hd hcs)).trans
            (ih cs.length (Nat.lt_succ_of_le hcs) _ hd).symm)

theorem pySplitW_nil : pySplitW [] = [] := rfl

theorem pySplitW_cons (c : Char) (cs : List Char) :
    pySplitW (c :: cs) =
      if isPySpace c then pySplitW cs
      else (c :: cs.takeWhile (fun x => !isPySpace x)) ::
        pySplitW (cs.dropWhile (fun x => !isPySpace x)) := by
  show pySplitWF (cs.length + 1) (c :: cs) = _
  simp only [pySplitWF]
  split
  · rfl
  · exact congrArg _ (pySplitWF_eq _ _ (List.dropWhile_sublist _).length_le)

theorem collapseWsRecF_eq (n : Nat) :
    ∀ l : List Char, l.length ≤ n → collapseWsRecF n l = collapseWsRec l := by
  induction n using Nat.strong_induction_on with
  | _ n ih =>
    intro l hl
    cases l with
    | nil => cases n <;> rfl
    | cons c cs =>
      cases n with
      | zero => simp at hl
      | succ n =>
        have hcs : cs.length ≤ n := by simpa using hl
        show collapseWsRecF (n + 1) (c :: cs) = collapseWsRecF (cs.length + 1) (c :: cs)
        simp only [collapseWsRecF]
        split
        · have hd : (cs.dropWhile isPySpace).length ≤ cs.length :=
            (List.dropWhile_sublist _).length_le
          exact congrArg _ ((ih n (Nat.lt_succ_self _) _ (le_trans hd hcs)).trans
            (ih cs.length (Nat.lt_succ_of_le hcs) _ hd).symm)
        · exact congrArg _ ((ih n (Nat.lt_succ_self _) cs hcs).trans
            (ih cs.length (Nat.lt_succ_of_le hcs) cs le_rfl).symm)

theorem collapseWsRec_cons (c : Char) (cs : List Char) :
    collapseWsRec (c :: cs) =
      if isPySpace c then ' ' :: collapseWsRec (cs.dropWhile isPySpace)
      else c :: collapseWsRec cs := by
  show collapseWsRecF (cs.length + 1) (c :: cs) = _
  simp only [collapseWsRecF]
  split
  · exact congrArg _ (collapseWsRecF_eq _ _ (List.dropWhile_sublist _).length_le)
  · rfl

/-! Helper lemmas about `takeWhile`, `dropWhile` and `rtrim`. -/

theorem takeWhile_all {p : Char → Bool} : ∀ {l : List Char}, (∀ a ∈ l, p a = true) →
    l.takeWhile p = l := by
  intro l h
  induction l with
  | nil => rfl
  | cons a l ih =>
    rw [List.takeWhile_cons_of_pos (h a (List.mem_cons_self a l))]
    exact congrArg _ (ih fun x hx => h x (List.mem_cons_of_mem a hx))

theorem dropWhile_all {p : Char → Bool} : ∀ {l : List Char}, (∀ a ∈ l, p a = true) →
    l.dropWhile p = [] := by
  intro l h
  induction l with
  | nil => rfl
  | cons a l ih =>
    rw [List.dropWhile_cons_of_pos (h a (List.mem_cons_self a l))]
    exact ih fun x hx => h x (List.mem_cons_of_mem a hx)

theorem takeWhile_all_append {p : Char → Bool} {x : Char} (l2 : List Char) :
    ∀ {l1 : List Char}, (∀ a ∈ l1, p a = true) → p x = false →
    (l1 ++ x :: l2).takeWhile p = l1 := by
  intro l1 h1 h2
  induction l1 with
  | nil =>
    show (x :: l2).takeWhile p = ([] : List Char)
    exact List.takeWhile_cons_of_neg (by simp [h2])
  | cons a l ih =>
    rw [List.cons_append, List.takeWhile_cons_of_pos (h1 a (List.mem_cons_self a l))]
    exact congrArg _ (ih fun y hy => h1 y (List.mem_cons_of_mem a hy))

theorem dropWhile_all_append {p : Char → Bool} {x : Char} (l2 : List Char) :
    ∀ {l1 : List Char}, (∀ a ∈ l1, p a = true) → p x = false →
    (l1 ++ x :: l2).dropWhile p = x :: l2 := by
  intro l1 h1 h2
  induction l1 with
  | nil =>
    show (x :: l2).dropWhile p = x :: l2
    exact List.dropWhile_cons_of_neg (by simp [h2])
  | cons a l ih =>
    rw [List.cons_append, List.dropWhile_cons_of_pos (h1 a (List.mem_cons_self a l))]
    exact ih fun y hy => h1 y (List.mem_cons_of_mem a hy)

theorem dropWhile_head_not {p : Char → Bool} :
    ∀ (l : List Char) (c : Char) (t : List Char), l.dropWhile p = c :: t → p c = false := by
  intro l
  induction l with
  | nil => intro c t h; simp [List.dropWhile] at h
  | cons a l ih =>
    intro c t h
    by_cases ha : p a = true
    · exact ih c t (by rwa [List.dropWhile_cons_of_pos ha] at h)
    · rw [List.dropWhile_cons_of_neg (by simpa using ha)] at h
      cases h
      simpa using ha

theorem rtrim_cons_ne_nil {cs : List Char} (c : Char) (h : rtrim cs ≠ []) :
    rtrim (c :: cs) = c :: rtrim cs := by
  cases hr : rtrim cs with
  | nil => exact absurd hr h
  | cons d ds => simp [rtrim, hr]

theorem rtrim_cons_nonspace {c : Char} (cs : List Char) (h : isPySpace c = false) :
    rtrim (c :: cs) = c :: rtrim cs := by
  cases hr : rtrim cs with
  | nil => simp [rtrim, hr, h]
  | cons d ds => simp [rtrim, hr]

theorem rtrim_nonspace_id : ∀ {l : List Char}, (∀ c ∈ l, isPySpace c = false) →
    rtrim l = l := by
  intro l h
  induction l with
  | nil => rfl
  | cons c cs ih =>
    rw [rtrim_cons_nonspace cs (h c (List.mem_cons_self c cs))]
    exact congrArg _ (ih fun x hx => h x (List.mem_cons_of_mem c hx))

theorem rtrim_append_ne {l2 : List Char} (h : rtrim l2 ≠ []) :
    ∀ l1 : List Char, rtrim (l1 ++ l2) = l1 ++ rtrim l2 := by
  intro l1
  induction l1 with
  | nil => rfl
  | cons c l1 ih =>
    have hne : rtrim (l1 ++ l2) ≠ [] := by
      rw [ih]
      intro hnil
      exact h (List.append_eq_nil.mp hnil).2
    rw [List.cons_append, rtrim_cons_ne_nil c hne, ih, List.cons_append]

theorem rtrim_append_nil {l2 : List Char} (h : rtrim l2 = []) :
    ∀ l1 : List Char, rtrim (l1 ++ l2) = rtrim l1 := by
  intro l1
  induction l1 with
  | nil => simpa using h
  | cons c l1 ih =>
    show rtrim (c :: (l1 ++ l2)) = rtrim (c :: l1)
    simp only [rtrim, ih]

theorem mem_rtrim : ∀ {l : List Char} {x : Char}, x ∈ rtrim l → x ∈ l := by
  intro l
  induction l with
  | nil => intro x h; simp [rtrim] at h
  | cons c cs ih =>
    intro x h
    simp only [rtrim] at h
    cases hr : rtrim cs with
    | nil =>
      rw [hr] at h
      by_cases hc : isPySpace c = true
      · simp [hc] at h
      · rw [if_neg (by simpa using hc)] at h
        simp at h
        simp [h]
    | cons d ds =>
      rw [hr] at h
      rcases List.mem_cons.mp h with h | h
      · simp [h]
      · exact List.mem_cons_of_mem c (ih (hr ▸ h))

/-! Helper lemmas about `pySplitW` and `joinSp`: the words produced by
splitting are non-empty and whitespace-free, splitting is blind to leading
whitespace, and splitting a properly joined word list recovers it. -/

theorem pySplitW_words_aux : ∀ (n : Nat) (l : List Char), l.length ≤ n →
    ∀ w ∈ pySplitW l, w ≠ [] ∧ ∀ c ∈ w, isPySpace c = false := by
  intro n
  induction n with
  | zero =>
    intro l hl w hw
    cases l with
    | nil => simp [pySplitW_nil] at hw
    | cons c cs => simp at hl
  | succ n ih =>
    intro l hl w hw
    cases l with
    | nil => simp [pySplitW_nil] at hw
    | cons c cs =>
      have hcs : cs.length ≤ n := by simpa using hl
      rw [pySplitW_cons] at hw
      by_cases hc : isPySpace c = true
      · rw [if_pos hc] at hw
        exact ih cs hcs w hw
      · rw [if_neg hc] at hw
        rcases List.mem_cons.mp hw with hw | hw
        · subst hw
          refine ⟨by simp, ?_⟩
          intro x hx
          rcases List.mem_cons.mp hx with hx | hx
          · subst hx; simpa using hc
          · simpa using List.mem_takeWhile_imp hx
        · exact ih _ (le_trans (List.dropWhile_sublist _).length_le hcs) w hw

theorem pySplitW_words (l : List Char) :
    ∀ w ∈ pySplitW l, w ≠ [] ∧ ∀ c ∈ w, isPySpace c = false :=
  pySplitW_words_aux l.length l le_rfl

theorem mem_pySplitW_aux : ∀ (n : Nat) (l : List Char), l.length ≤ n →
    ∀ w ∈ pySplitW l, ∀ c ∈ w, c ∈ l := by
  intro n
  induction n with
  | zero =>
    intro l hl w hw
    cases l with
    | nil => simp [pySplitW_nil] at hw
    | cons c cs => simp at hl
  | succ n ih =>
    intro l hl w hw x hx
    cases l with
    | nil => simp [pySplitW_nil] at hw
    | cons c cs =>
      have hcs : cs.length ≤ n := by simpa using hl
      rw [pySplitW_cons] at hw
      by_cases hc : isPySpace c = true
      · rw [if_pos hc] at hw
        exact List.mem_cons_of_mem c (ih cs hcs w hw x hx)
      · rw [if_neg hc] at hw
        rcases List.mem_cons.mp hw with hw | hw
        · subst hw
          rcases List.mem_cons.mp hx with hx | hx
          · simp [hx]
          · exact List.mem_cons_of_mem c ((List.takeWhile_sublist _).subset hx)
        · exact List.mem_cons_of_mem c ((List.dropWhile_sublist _).subset
            (ih _ (le_trans (List.dropWhile_sublist _).length_le hcs) w hw x hx))

theorem mem_pySplitW (l : List Char) : ∀ w ∈ pySplitW l, ∀ c ∈ w, c ∈ l :=
  mem_pySplitW_aux l.length l le_rfl

theorem pySplitW_dropWhile : ∀ l : List Char, pySplitW (l.dropWhile isPySpace) = pySplitW l := by
  intro l
  induction l with
  | nil => rfl
  | cons c cs ih =>
    by_cases hc : isPySpace c = true
    · rw [List.dropWhile_cons_of_pos hc, ih, pySplitW_cons, if_pos hc]
    · rw [List.dropWhile_cons_of_neg (by simpa using hc)]

theorem pySplitW_join : ∀ ws : List (List Char),
    (∀ w ∈ ws, w ≠ [] ∧ ∀ c ∈ w, isPySpace c = false) → pySplitW (joinSp ws) = ws := by
  intro ws
  induction ws with
  | nil => intro _; rfl
  | cons w ws ih =>
    intro h
    obtain ⟨hw, hwc⟩ := h w (List.mem_cons_self w ws)
    obtain ⟨c, cs, rfl⟩ : ∃ c cs, w = c :: cs := by
      cases w with
      | nil => exact absurd rfl hw
      | cons c cs => exact ⟨c, cs, rfl⟩
    have hc : isPySpace c = false := hwc c (List.mem_cons_self c cs)
    have hcs : ∀ x ∈ cs, (fun x => !isPySpace x) x = true := by
      intro x hx
      simp [hwc x (List.mem_cons_of_mem c hx)]
    cases ws with
    | nil =>
      show pySplitW (c :: cs) = [c :: cs]
      rw [pySplitW_cons, if_neg (by simp [hc]), takeWhile_all hcs, dropWhile_all hcs, pySplitW_nil]
    | cons w2 ws2 =>
      show pySplitW ((c :: cs) ++ ' ' :: joinSp (w2 :: ws2)) = (c :: cs) :: w2 :: ws2
      rw [List.cons_append, pySplitW_cons, if_neg (by simp [hc]),
        takeWhile_all_append _ hcs (by decide), dropWhile_all_append _ hcs (by decide),
        pySplitW_cons, if_pos (by decide),
        ih (fun w' hw' => h w' (List.mem_cons_of_mem _ hw'))]

theorem mem_joinSp : ∀ (ws : List (List Char)) (x : Char),
    x ∈ joinSp ws → x = ' ' ∨ ∃ w ∈ ws, x ∈ w := by
  intro ws
  induction ws with
  | nil => intro x h; simp [joinSp] at h
  | cons w ws ih =>
    intro x h
    cases ws with
    | nil => exact Or.inr ⟨w, by simp, by simpa [joinSp] using h⟩
    | cons w2 ws2 =>
      have h' : x ∈ w ++ ' ' :: joinSp (w2 :: ws2) := by simpa [joinSp] using h
      rcases List.mem_append.mp h' with h1 | h1
      · exact Or.inr ⟨w, List.mem_cons_self _ _, h1⟩
      · rcases List.mem_cons.mp h1 with h2 | h2
        · exact Or.inl h2
        · rcases ih x h2 with h3 | ⟨w3, hw3, hx3⟩
          · exact Or.inl h3
          · exact Or.inr ⟨w3, List.mem_cons_of_mem _ hw3, hx3⟩

theorem joinSp_ne_nil : ∀ ws : List (List Char), ws ≠ [] → (∀ w ∈ ws, w ≠ []) →
    joinSp ws ≠ [] := by
  intro ws hne h
  cases ws with
  | nil => exact absurd rfl hne
  | cons w ws2 =>
    cases ws2 with
    | nil => simpa [joinSp] using h w (by simp)
    | cons w2 ws3 => simp [joinSp]

theorem rtrim_joinSp : ∀ ws : List (List Char),
    (∀ w ∈ ws, w ≠ [] ∧ ∀ c ∈ w, isPySpace c = false) → rtrim (joinSp ws) = joinSp ws := by
  intro ws
  induction ws with
  | nil => intro _; rfl
  | cons w ws ih =>
    intro h
    cases ws with
    | nil =>
      show rtrim w = w
      exact rtrim_nonspace_id (h w (by simp)).2
    | cons w2 ws2 =>
      have ht := ih (fun w' hw' => h w' (List.mem_cons_of_mem _ hw'))
      have htne : joinSp (w2 :: ws2) ≠ [] :=
        joinSp_ne_nil _ (by simp) (fun w' hw' => (h w' (List.mem_cons_of_mem _ hw')).1)
      have hsp : rtrim (' ' :: joinSp (w2 :: ws2)) = ' ' :: joinSp (w2 :: ws2) := by
        rw [rtrim_cons_ne_nil ' ' (by rw [ht]; exact htne), ht]
      show rtrim (w ++ ' ' :: joinSp (w2 :: ws2)) = w ++ ' ' :: joinSp (w2 :: ws2)
      rw [rtrim_append_ne (by rw [hsp]; simp) w, hsp]

theorem strip_joinSp : ∀ ws : List (List Char),
    (∀ w ∈ ws, w ≠ [] ∧ ∀ c ∈ w, isPySpace c = false) → pyStrip (joinSp ws) = joinSp ws := by
  intro ws h
  have hr := rtrim_joinSp ws h
  unfold pyStrip
  cases ws with
  | nil => rfl
  | cons w ws2 =>
    obtain ⟨hw, hwc⟩ := h w (List.mem_cons_self _ _)
    obtain ⟨c, cs, rfl⟩ : ∃ c cs, w = c :: cs := by
      cases w with
      | nil => exact absurd rfl hw
      | cons c cs => exact ⟨c, cs, rfl⟩
    have hc : isPySpace c = false := hwc c (by simp)
    have hd : (joinSp ((c :: cs) :: ws2)).dropWhile isPySpace = joinSp ((c :: cs) :: ws2) := by
      cases ws2 with
      | nil =>
        show (c :: cs).dropWhile isPySpace = c :: cs
        exact List.dropWhile_cons_of_neg (by simp [hc])
      | cons w2 ws3 =>
        show ((c :: cs) ++ ' ' :: joinSp (w2 :: ws3)).dropWhile isPySpace = _
        rw [List.cons_append, List.dropWhile_cons_of_neg (by simp [hc])]
        rfl
    rw [hd, hr]

theorem strip_collapse (l : List Char) : pyStrip (collapseWs l) = collapseWs l :=
  strip_joinSp _ (pySplitW_words l)

theorem collapse_idem (l : List Char) : collapseWs (collapseWs l) = collapseWs l := by
  unfold collapseWs
  rw [pySplitW_join _ (pySplitW_words l)]

theorem mem_collapseWs {x : Char} {l : List Char} (h : x ∈ collapseWs l) : x = ' ' ∨ x ∈ l := by
  rcases mem_joinSp _ x h with h1 | ⟨w, hw, hx⟩
  · exact Or.inl h1
  · exact Or.inr (mem_pySplitW l w hw x hx)

/-! The bridge between the two readings of whitespace collapsing:
`' '.join(text.split())` (as the code computes it) coincides with
"collapse every whitespace run to one space, then trim" (as the spec
words it). -/

theorem collapseWsRec_nil : collapseWsRec [] = [] := rfl

theorem joinSp_cons_ne {w : List Char} {ws : List (List Char)} (h : ws ≠ []) :
    joinSp (w :: ws) = w ++ ' ' :: joinSp ws := by
  cases ws with
  | nil => exact absurd rfl h
  | cons w2 ws2 => rfl

theorem collapseWsRec_append_nonspace : ∀ (w r : List Char),
    (∀ c ∈ w, isPySpace c = false) → collapseWsRec (w ++ r) = w ++ collapseWsRec r := by
  intro w r h
  induction w with
  | nil => rfl
  | cons c cs ih =>
    rw [List.cons_append, collapseWsRec_cons, if_neg (by simp [h c (List.mem_cons_self c cs)]),
      ih (fun x hx => h x (List.mem_cons_of_mem c hx)), List.cons_append]

theorem collapse_eq_strip_aux : ∀ (n : Nat) (l : List Char), l.length ≤ n →
    collapseWs l = pyStrip (collapseWsRec l) := by
  intro n
  induction n using Nat.strong_induction_on with
  | _ n ih =>
    intro l hl
    cases l with
    | nil => rfl
    | cons c cs =>
      cases n with
      | zero => simp at hl
      | succ n =>
        have hcs : cs.length ≤ n := by simpa using hl
        by_cases hc : isPySpace c = true
        · have hL : collapseWs (c :: cs) = collapseWs (cs.dropWhile isPySpace) := by
            unfold collapseWs
            rw [pySplitW_cons, if_pos hc, pySplitW_dropWhile]
          have hR : pyStrip (collapseWsRec (c :: cs)) =
              pyStrip (collapseWsRec (cs.dropWhile isPySpace)) := by
            rw [collapseWsRec_cons, if_pos hc]
            unfold pyStrip
            rw [List.dropWhile_cons_of_pos (by decide : isPySpace ' ' = true)]
          rw [hL, hR]
          exact ih n (Nat.lt_succ_self n) _ (le_trans (List.dropWhile_sublist _).length_le hcs)
        · have hc' : isPySpace c = false := by simpa using hc
          have hsplit : cs.takeWhile (fun x => !isPySpace x) ++
              cs.dropWhile (fun x => !isPySpace x) = cs :=
            List.takeWhile_append_dropWhile _ cs
          have hwns : ∀ x ∈ cs.takeWhile (fun x => !isPySpace x), isPySpace x = false := by
            intro x hx
            simpa using List.mem_takeWhile_imp hx
          have hRec : collapseWsRec cs = cs.takeWhile (fun x => !isPySpace x) ++
              collapseWsRec (cs.dropWhile (fun x => !isPySpace x)) := by
            conv_lhs => rw [← hsplit]
            exact collapseWsRec_append_nonspace _ _ hwns
          have hstrip : pyStrip (collapseWsRec (c :: cs)) = c :: rtrim (collapseWsRec cs) := by
            rw [collapseWsRec_cons, if_neg hc]
            unfold pyStrip
            rw [List.dropWhile_cons_of_neg (by simp [hc']), rtrim_cons_nonspace _ hc']
          have hLsplit : collapseWs (c :: cs) =
              joinSp ((c :: cs.takeWhile (fun x => !isPySpace x)) ::
                pySplitW (cs.dropWhile (fun x => !isPySpace x))) := by
            unfold collapseWs
            rw [pySplitW_cons, if_neg hc]
          rw [hstrip, hRec, hLsplit]
          cases hr : cs.dropWhile (fun x => !isPySpace x) with
          | nil =>
            rw [pySplitW_nil, collapseWsRec_nil, List.append_nil, rtrim_nonspace_id hwns]
            rfl
          | cons a r' =>
            have ha : isPySpace a = true := by
              have := dropWhile_head_not cs a r' hr
              simpa using this
            have hlen1 : (a :: r').length ≤ cs.length :=
              hr ▸ (List.dropWhile_sublist _).length_le
            have hps : pySplitW (a :: r') = pySplitW (r'.dropWhile isPySpace) := by
              rw [pySplitW_cons, if_pos ha, pySplitW_dropWhile]
            rw [collapseWsRec_cons, if_pos ha, hps]
            cases hr2 : r'.dropWhile isPySpace with
            | nil =>
              rw [pySplitW_nil, collapseWsRec_nil,
                rtrim_append_nil (by decide : rtrim [' '] = []) _, rtrim_nonspace_id hwns]
              rfl
            | cons b r2' =>
              have hb : isPySpace b = false := dropWhile_head_not r' b r2' hr2
              have hlen2 : (b :: r2').length ≤ n := by
                have h1 : (b :: r2').length ≤ r'.length :=
                  hr2 ▸ (List.dropWhile_sublist _).length_le
                have h2 : r'.length + 1 ≤ cs.length := by simpa using hlen1
                omega
              have hT : collapseWsRec (b :: r2') = b :: collapseWsRec r2' := by
                rw [collapseWsRec_cons, if_neg (by simp [hb])]
              have hTne : rtrim (collapseWsRec (b :: r2')) ≠ [] := by
                rw [hT, rtrim_cons_nonspace _ hb]
                simp
              have hTstrip : pyStrip (collapseWsRec (b :: r2')) =
                  rtrim (collapseWsRec (b :: r2')) := by
                unfold pyStrip
                rw [hT, List.dropWhile_cons_of_neg (by simp [hb]), ← hT]
              have hIH : collapseWs (b :: r2') = rtrim (collapseWsRec (b :: r2')) := by
                rw [← hTstrip]
                exact ih n (Nat.lt_succ_self n) (b :: r2') hlen2
              have hsp : rtrim (' ' :: collapseWsRec (b :: r2')) =
                  ' ' :: rtrim (collapseWsRec (b :: r2')) :=
                rtrim_cons_ne_nil ' ' hTne
              have hchain : rtrim (cs.takeWhile (fun x => !isPySpace x) ++
                  ' ' :: collapseWsRec (b :: r2')) =
                  cs.takeWhile (fun x => !isPySpace x) ++
                    ' ' :: rtrim (collapseWsRec (b :: r2')) := by
                rw [rtrim_append_ne (by rw [hsp]; simp) _, hsp]
              have hpne : pySplitW (b :: r2') ≠ [] := by
                rw [pySplitW_cons, if_neg (by simp [hb])]
                simp
              rw [hchain, ← hIH, joinSp_cons_ne hpne]
              rfl

theorem collapse_eq_strip (l : List Char) : collapseWs l = pyStrip (collapseWsRec l) :=
  collapse_eq_strip_aux l.length l le_rfl

/-! Helper lemmas for the sentiment classifier, the mention extractor and
the summarizer. -/

theorem sum_map_ite_eq_length_filter : ∀ (l : List String) (p : String → Bool),
    (l.map (fun w => if p w then (1 : Nat) else 0)).sum = (l.filter p).length := by
  intro l p
  induction l with
  | nil => rfl
  | cons w l ih =>
    by_cases hw : p w = true
    · rw [List.map_cons, List.sum_cons, if_pos hw, List.filter_cons_of_pos hw,
        List.length_cons, ih]
      omega
    · rw [List.map_cons, List.sum_cons, if_neg hw, List.filter_cons_of_neg hw, ih]
      omega

theorem mentionsSpec_skip : ∀ (pre rest : List Char), (∀ c ∈ pre, isWordChar c = true) →
    mentionsSpec (pre ++ rest) = mentionsSpec rest := by
  intro pre
  induction pre with
  | nil => intro rest _; rfl
  | cons a pre ih =>
    intro rest h
    have ha : isWordChar a = true := h a (List.mem_cons_self _ _)
    have hne : ¬(a = '@' ∧ (pre ++ rest).takeWhile isWordChar ≠ []) := by
      rintro ⟨rfl, -⟩
      exact absurd ha (by decide)
    show mentionsSpec (a :: (pre ++ rest)) = mentionsSpec rest
    simp only [mentionsSpec]
    rw [if_neg hne]
    exact ih rest (fun x hx => h x (List.mem_cons_of_mem a hx))

theorem mentionScan_eq_spec : ∀ (n : Nat) (l : List Char), l.length ≤ n →
    mentionScanF n l = mentionsSpec l := by
  intro n
  induction n with
  | zero =>
    intro l hl
    cases l with
    | nil => rfl
    | cons c cs => simp at hl
  | succ n ih =>
    intro l hl
    cases l with
    | nil => rfl
    | cons c rest =>
      have hrest : rest.length ≤ n := by simpa using hl
      simp only [mentionScanF, mentionsSpec]
      by_cases hc : c = '@'
      · rw [if_pos hc]
        by_cases hw : rest.takeWhile isWordChar = []
        · rw [if_pos hw, if_neg (by simp [hw])]
          exact ih rest hrest
        · rw [if_neg hw, if_pos ⟨hc, hw⟩]
          have hskip : mentionsSpec rest = mentionsSpec (rest.dropWhile isWordChar) := by
            conv_lhs => rw [← List.takeWhile_append_dropWhile isWordChar rest]
            exact mentionsSpec_skip _ _ (fun x hx => List.mem_takeWhile_imp hx)
          rw [ih _ (le_trans (List.dropWhile_sublist _).length_le hrest), ← hskip]
      · rw [if_neg hc, if_neg (by simp [hc])]
        exact ih rest hrest

theorem lastSpacePos_none_iff : ∀ l : List Char, lastSpacePos l = none ↔ ' ' ∉ l := by
  intro l
  induction l with
  | nil => simp [lastSpacePos]
  | cons c rest ih =>
    simp only [lastSpacePos]
    cases h : lastSpacePos rest with
    | some k =>
      have hr : ' ' ∈ rest := by
        by_contra hmem
        rw [ih.mpr hmem] at h
        cases h
      simp [List.mem_cons, hr]
    | none =>
      have hr : ' ' ∉ rest := ih.mp h
      by_cases hc : c = ' '
      · simp [hc]
      · simp [List.mem_cons, hr, hc, Ne.symm hc]

theorem beforeLastSpace_eq_trunc : ∀ l : List Char, beforeLastSpace l = truncAtLastSpaceSpec l := by
  intro l
  induction l with
  | nil => rfl
  | cons c rest ih =>
    by_cases hmem : ' ' ∈ rest
    · obtain ⟨k, hk⟩ : ∃ k, lastSpacePos rest = some k := by
        cases h : lastSpacePos rest with
        | none => exact absurd hmem ((lastSpacePos_none_iff rest).mp h)
        | some k => exact ⟨k, rfl⟩
      have h1 : beforeLastSpace (c :: rest) = c :: beforeLastSpace rest := by
        simp only [beforeLastSpace]
        rw [if_pos hmem]
      have h2 : truncAtLastSpaceSpec (c :: rest) = c :: rest.take k := by
        simp only [truncAtLastSpaceSpec, lastSpacePos, hk]
        rfl
      have h3 : truncAtLastSpaceSpec rest = rest.take k := by
        simp only [truncAtLastSpaceSpec, hk]
      rw [h1, h2, ih, h3]
    · have hnone : lastSpacePos rest = none := (lastSpacePos_none_iff rest).mpr hmem
      by_cases hc : c = ' '
      · have h1 : beforeLastSpace (c :: rest) = [] := by
          simp only [beforeLastSpace]
          rw [if_neg hmem, if_pos hc]
        have h2 : truncAtLastSpaceSpec (c :: rest) = [] := by
          simp only [truncAtLastSpaceSpec, lastSpacePos, hnone]
          rw [if_pos hc]
          rfl
        rw [h1, h2]
      · have h1 : beforeLastSpace (c :: rest) = c :: rest := by
          simp only [beforeLastSpace]
          rw [if_neg hmem, if_neg hc]
        have h2 : truncAtLastSpaceSpec (c :: rest) = c :: rest := by
          simp only [truncAtLastSpaceSpec, lastSpacePos, hnone]
          rw [if_neg hc]
        rw [h1, h2]

theorem beforeLastSpace_length_le : ∀ l : List Char, (beforeLastSpace l).length ≤ l.length := by
  intro l
  induction l with
  | nil => simp [beforeLastSpace]
  | cons c rest ih =>
    simp only [beforeLastSpace]
    by_cases hmem : ' ' ∈ rest
    · rw [if_pos hmem]
      simpa using ih
    · rw [if_neg hmem]
      by_cases hc : c = ' '
      · simp [hc]
      · simp [hc]

/-! Claim theorems. -/

/-- C1 (counterexample): `clean_text` is not idempotent.  On `"a $ b"` the
first pass removes the dollar sign, leaving the double space `"a  b"`,
which a second pass collapses to `"a b"`. -/
theorem C1_clean_text_not_idempotent :
    clean_text (clean_text "a $ b") ≠ clean_text "a $ b" := by decide

/-- C1 (amended): `clean_text` is idempotent on every text whose characters
all lie in the kept set (word characters, whitespace, `. , ! ? -`), i.e.
whenever the character-filtering pass removes nothing. -/
theorem C1_clean_text_idempotent_of_allowed (s : String)
    (h : s.data.all allowedChar = true) : clean_text (clean_text s) = clean_text s := by
  have hall : ∀ c ∈ s.data, allowedChar c = true := List.all_eq_true.mp h
  have hall1 : ∀ c ∈ collapseWs s.data, allowedChar c = true := by
    intro c hc
    rcases mem_collapseWs hc with h1 | h1
    · subst h1; decide
    · exact hall c h1
  have h1 : clean_text s = String.mk (collapseWs s.data) := by
    unfold clean_text
    rw [List.filter_eq_self.mpr hall1, strip_collapse]
  rw [h1]
  have hall2 : ∀ c ∈ collapseWs (collapseWs s.data), allowedChar c = true := by
    intro c hc
    rcases mem_collapseWs hc with h2 | h2
    · subst h2; decide
    · exact hall1 c h2
  show String.mk (pyStrip ((collapseWs (collapseWs s.data)).filter allowedChar)) =
    String.mk (collapseWs s.data)
  rw [List.filter_eq_self.mpr hall2, strip_collapse, collapse_idem]

/-- C1 (witness): a concrete allowed-only text on which the amended
idempotence theorem applies. -/
theorem C1_witness :
    ("ab cd." : String).data.all allowedChar = true ∧
    clean_text (clean_text "ab cd.") = clean_text "ab cd." :=
  ⟨by decide, C1_clean_text_idempotent_of_allowed "ab cd." (by decide)⟩

/-- C2 (counterexample): the claim expects `"positive"` on
`"amazing amazing terrible"`, but the code tests each lexicon word only
once (`word in content_lower`), so the repeated `"amazing"` still counts
one positive hit and the result is `"neutral"`, not `"positive"`. -/
theorem C2_sentiment_boundary_counterexample :
    basic_sentiment_analysis "amazing amazing terrible" ≠ "positive" := by decide

/-- C2 (amended): both boundary examples are neutral: `"good bad"` has
P = N = 1, and `"amazing amazing terrible"` also has P = N = 1 because each
lexicon word contributes at most one hit regardless of multiplicity. -/
theorem C2_sentiment_boundary_amended :
    basic_sentiment_analysis "good bad" = "neutral" ∧
    basic_sentiment_analysis "amazing amazing terrible" = "neutral" := by decide

/-- C3: the sentiment classifier agrees, on every text, with the spec's
description: lower-case the text, count the positive and negative lexicon
words contained in it as substrings (one hit per lexicon word), and return
positive, negative, or neutral by comparing the counts. -/
theorem C3_basic_sentiment_analysis_eq_spec :
    ∀ text : String, basic_sentiment_analysis text = classify_spec text := by
  intro text
  simp only [basic_sentiment_analysis, classify_spec]
  rw [sum_map_ite_eq_length_filter, sum_map_ite_eq_length_filter]
  rfl

/-- C4: every embedded analysis operation returns its default value on the
empty string (the embeddings are total Lean functions, mirroring the fact
that the Python bodies have no raising operation); in particular
`extract_emails "" = []` and `basic_sentiment_analysis "" = "neutral"`. -/
theorem C4_totality_empty_string :
    extract_emails "" = [] ∧ basic_sentiment_analysis "" = "neutral" ∧
    clean_text "" = "" ∧ extract_mentions "" = [] ∧ extract_hashtags "" = [] ∧
    get_word_count "" = 0 ∧ summarize_content "" 100 = "" ∧
    search_text "" "term" false = false ∧ contains_keywords "" ["kw"] = [("kw", false)] ∧
    identify_platform "" = "unknown" := by decide

/-- C5 (counterexample): on `"$ _a"` the code and the claim's description
disagree: the code keeps the underscore (the class `\w` contains it) and
strips the space exposed by deleting `$`, returning `"_a"`, while the
claimed algorithm (alphanumeric-only keep set, no final trim) returns
`" a"`.  In particular an underscore does survive `clean_text`. -/
theorem C5_clean_text_ne_claimed :
    clean_text "$ _a" ≠ clean_claimed "$ _a" ∧ '_' ∈ (clean_text "$ _a").data := by decide

/-- C5 (amended): `clean_text` collapses whitespace runs to single spaces
and trims, then removes every character that is not a word character
(alphanumeric or underscore), whitespace, or one of `. , ! ? -`, and trims
again; consequently every surviving character is in that kept set. -/
theorem C5_clean_text_eq_amended :
    ∀ s : String, clean_text s = clean_amended s ∧ (clean_text s).data.all allowedChar = true := by
  intro s
  constructor
  · unfold clean_text clean_amended
    rw [collapse_eq_strip]
  · apply List.all_eq_true.mpr
    intro x hx
    have hx' : x ∈ pyStrip ((collapseWs s.data).filter allowedChar) := hx
    unfold pyStrip at hx'
    have hx2 : x ∈ ((collapseWs s.data).filter allowedChar).dropWhile isPySpace := mem_rtrim hx'
    exact List.of_mem_filter ((List.dropWhile_sublist _).subset hx2)

/-- C6 (code evaluated at the failing input): the source pattern's class
`[A-Z|a-z]` admits the literal bar, so `extract_emails` accepts a token
whose top-level label `ab|cd` is not made of letters only. -/
theorem C6_extract_emails_bar_in_tld :
    extract_emails "a@b.ab|cd" = ["a@b.ab|cd"] ∧ ('|').isAlpha = false := by decide

/-- C7: `summarize_content` returns the text unchanged when it fits in
`max_length`, and otherwise truncates the `max_length`-prefix at its last
space (keeping the whole prefix when it has no space) and appends the
three-dot marker. -/
theorem C7_summarize_content_spec :
    ∀ (text : String) (m : Nat),
    (text.data.length ≤ m → summarize_content text (m : Int) = text) ∧
    (m < text.data.length → summarize_content text (m : Int) =
      String.mk (truncAtLastSpaceSpec (text.data.take m) ++ ['.', '.', '.'])) := by
  intro text m
  constructor
  · intro h
    unfold summarize_content
    rw [if_pos (by exact_mod_cast h)]
  · intro h
    unfold summarize_content
    rw [if_neg (by omega)]
    unfold pySliceTo
    rw [if_neg (by omega), Int.toNat_natCast, beforeLastSpace_eq_trunc]

/-- C7 (witness): the two concrete examples of the claim. -/
theorem C7_witness :
    summarize_content "The quick brown fox jumps" 10 = "The quick..." ∧
    summarize_content "short" 100 = "short" := by
  constructor
  · exact ((C7_summarize_content_spec "The quick brown fox jumps" 10).2 (by decide)).trans
      (by decide)
  · exact (C7_summarize_content_spec "short" 100).1 (by decide)

/-- C8 (code evaluated at the failing input): a negative `max_length` is
not rejected; the code silently applies Python's negative slicing and
returns `"hello..."` instead of failing fast. -/
theorem C8_summarize_content_negative_returns :
    summarize_content "hello world" (-3) = "hello..." := by decide

/-- C9: mention extraction returns, for each `@` followed by one or more
word characters, exactly those word characters without the leading `@`, in
left-to-right order; in particular the two concrete examples of the claim,
including the email false positive. -/
theorem C9_extract_mentions_spec :
    (∀ s : String, extract_mentions s = (mentionsSpec s.data).map String.mk) ∧
    extract_mentions "Hey @user1 and @user2!" = ["user1", "user2"] ∧
    extract_mentions "user@domain.com" = ["domain"] := by
  refine ⟨?_, by decide, by decide⟩
  intro s
  unfold extract_mentions
  rw [mentionScan_eq_spec s.data.length s.data le_rfl]

/-- C10: for every text and every `max_length ≥ 0` the summary is at most
`max_length + 3` characters (the three-dot marker may overshoot), and the
bound `max_length` itself is not guaranteed, as the spaceless input
`"abcdef"` with `max_length = 4` shows. -/
theorem C10_summarize_content_length_bound :
    (∀ (text : String) (m : Nat), (summarize_content text (m : Int)).data.length ≤ m + 3) ∧
    4 < (summarize_content "abcdef" 4).data.length := by
  refine ⟨?_, by decide⟩
  intro text m
  unfold summarize_content
  by_cases h : (text.data.length : Int) ≤ (m : Int)
  · rw [if_pos h]
    have h' : text.data.length ≤ m := by exact_mod_cast h
    omega
  · rw [if_neg h]
    show (beforeLastSpace (pySliceTo text.data (m : Int)) ++ ['.', '.', '.']).length ≤ m + 3
    rw [List.length_append]
    have h1 : (beforeLastSpace (pySliceTo text.data (m : Int))).length ≤
        (pySliceTo text.data (m : Int)).length := beforeLastSpace_length_le _
    have h2 : (pySliceTo text.data (m : Int)).length ≤ m := by
      unfold pySliceTo
      rw [if_neg (by omega), Int.toNat_natCast]
      exact List.length_take_le m text.data
    simp only [List.length_cons, List.length_nil]
    omega
